import Mathlib

/-!
# Verification of the StringZilla C++ wrapper (include/stringzilla/stringzilla.hpp)

A shallow embedding of the core of `stringzilla.hpp`: the `character_set`
bitset, `string_view` slicing / partitioning, the lazy matcher / range
iteration framework (`range_matches`, `range_splits`, `range_rsplits`),
and the small-buffer-optimized `basic_string` ownership machinery.

Strings are modelled as `List Nat` of byte values; pointers into a
haystack are modelled as offsets from its start.  The byte-level C
primitives (`sz_find`, `sz_find_last`, `sz_u8_set_contains`,
`sz_string_init`, `sz_string_expand`, ...) are declared in
`stringzilla/stringzilla.h`, which is not part of the C++ sources here;
they are modelled from the specification where needed, and each such
definition is marked in its doc comment.
-/

/-! ## Byte-level search primitives (modelled collaborators) -/

/-- Boolean test that `needle` is a prefix of `hay` (byte-wise equality). -/
def bytesIsPre : List Nat → List Nat → Bool
  | [], _ => true
  | _ :: _, [] => false
  | a :: t1, b :: t2 => (a == b) && bytesIsPre t1 t2

theorem bytesIsPre_iff (needle hay : List Nat) :
    bytesIsPre needle hay = true ↔ needle <+: hay := by
  induction needle generalizing hay with
  | nil =>
    constructor
    · intro _; exact List.nil_prefix
    · intro _; rfl
  | cons a t1 ih =>
    cases hay with
    | nil =>
      constructor
      · intro h; exact absurd h (by simp [bytesIsPre])
      · intro h; exact absurd h (by simp)
    | cons b t2 =>
      show ((a == b) && bytesIsPre t1 t2) = true ↔ _
      rw [List.cons_prefix_cons]
      simp only [Bool.and_eq_true, beq_iff_eq, ih]

/-- Modelled from the spec: `sz_find` (forward substring search) returns the
offset of the first occurrence of `needle` in `hay`, or not-found (`none`,
the embedding of the `npos` sentinel). -/
def listFind : List Nat → List Nat → Option Nat
  | [], needle => if bytesIsPre needle [] then some 0 else none
  | h :: t, needle =>
    if bytesIsPre needle (h :: t) then some 0
    else (listFind t needle).map (· + 1)

/-- Modelled from the spec: `sz_find_last` (backward substring search) returns
the offset of the last occurrence of `needle` in `hay`, or not-found. -/
def listRFind : List Nat → List Nat → Option Nat
  | [], needle => if bytesIsPre needle [] then some 0 else none
  | h :: t, needle =>
    match listRFind t needle with
    | some i => some (i + 1)
    | none => if bytesIsPre needle (h :: t) then some 0 else none

theorem listFind_le (hay needle : List Nat) (i : Nat)
    (h : listFind hay needle = some i) : i ≤ hay.length := by
  induction hay generalizing i with
  | nil =>
    unfold listFind at h
    split at h
    · simp_all
    · simp_all
  | cons b t ih =>
    unfold listFind at h
    split at h
    · obtain rfl : 0 = i := by simp_all
      simp
    · simp only [Option.map_eq_some'] at h
      obtain ⟨j, hj, rfl⟩ := h
      have := ih j hj
      simp only [List.length_cons]
      omega

theorem listFind_matchAt (hay needle : List Nat) (i : Nat)
    (h : listFind hay needle = some i) : needle <+: hay.drop i := by
  induction hay generalizing i with
  | nil =>
    unfold listFind at h
    split at h
    · rename_i hp
      obtain rfl : 0 = i := by simp_all
      simpa using (bytesIsPre_iff needle []).mp hp
    · simp_all
  | cons b t ih =>
    unfold listFind at h
    split at h
    · rename_i hp
      obtain rfl : 0 = i := by simp_all
      simpa using (bytesIsPre_iff needle (b :: t)).mp hp
    · simp only [Option.map_eq_some'] at h
      obtain ⟨j, hj, rfl⟩ := h
      simpa using ih j hj

theorem listFind_bound (hay needle : List Nat) (i : Nat)
    (h : listFind hay needle = some i) : i + needle.length ≤ hay.length := by
  have h1 := listFind_le hay needle i h
  have h2 := (listFind_matchAt hay needle i h).length_le
  simp only [List.length_drop] at h2
  omega

/-- At a reported match, the haystack decomposes as prefix ++ needle ++ rest. -/
theorem listFind_decomp (hay needle : List Nat) (i : Nat)
    (h : listFind hay needle = some i) :
    hay = hay.take i ++ needle ++ hay.drop (i + needle.length) := by
  obtain ⟨t, ht⟩ := listFind_matchAt hay needle i h
  have hdrop : hay.drop (i + needle.length) = t := by
    have h2 : (hay.drop i).drop needle.length = t := by
      rw [← ht]; simp
    rw [List.drop_drop] at h2
    exact h2
  conv_lhs => rw [← List.take_append_drop i hay]
  rw [← ht, hdrop, List.append_assoc]

theorem listFind_nil (needle : List Nat) (h : needle ≠ []) :
    listFind [] needle = none := by
  cases needle with
  | nil => simp_all
  | cons a t => simp [listFind, bytesIsPre]

/-! ## `character_set` (256-bit byte membership table)

The source stores four 64-bit words `_u64s[4]`; a byte `c` lives in word
`c >> 6` at bit `c & 63`.  Words are modelled as `Nat` (all operations on
them only ever set bits below 64 for byte inputs `< 256`). -/

structure character_set where
  u64s0 : Nat
  u64s1 : Nat
  u64s2 : Nat
  u64s3 : Nat
deriving DecidableEq

/-- `character_set()` : all four words zeroed. -/
def csEmpty : character_set := ⟨0, 0, 0, 0⟩

def csWord (s : character_set) (i : Nat) : Nat :=
  if i = 0 then s.u64s0 else if i = 1 then s.u64s1 else if i = 2 then s.u64s2 else s.u64s3

def csSetWord (s : character_set) (i : Nat) (w : Nat) : character_set :=
  if i = 0 then { s with u64s0 := w }
  else if i = 1 then { s with u64s1 := w }
  else if i = 2 then { s with u64s2 := w }
  else { s with u64s3 := w }

/-- `add(c)` / the constructor loop body:
`bitset_._u64s[c >> 6] |= (1ull << (c & 63u))`  (`c & 63 = c % 64`). -/
def csAdd (s : character_set) (c : Nat) : character_set :=
  csSetWord s (c >>> 6) (csWord s (c >>> 6) ||| (1 <<< (c % 64)))

/-- Modelled from the spec: `sz_u8_set_contains` from stringzilla.h, the O(1)
membership test reading the bit that `add` sets. -/
def csContains (s : character_set) (c : Nat) : Bool :=
  (csWord s (c >>> 6)) &&& (1 <<< (c % 64)) != 0

set_option linter.unusedVariables false in
/-- `operator|` as written in the source (lines 172-177): it builds `result`
as the word-wise disjunction of the two operands, but the `return` statement
returns `*this`, so the computed union is discarded and the left operand is
returned unchanged. -/
def csUnion (a b : character_set) : character_set :=
  let result : character_set :=
    ⟨a.u64s0 ||| b.u64s0, a.u64s1 ||| b.u64s1, a.u64s2 ||| b.u64s2, a.u64s3 ||| b.u64s3⟩
  a

/-- The value `result` that the source computes and then fails to return. -/
def csUnionComputed (a b : character_set) : character_set :=
  ⟨a.u64s0 ||| b.u64s0, a.u64s1 ||| b.u64s1, a.u64s2 ||| b.u64s2, a.u64s3 ||| b.u64s3⟩

/-! ## `string_view` slicing and partitioning -/

/-- `string_view::substr(pos)` (line 849): `string_view(start_ + pos, length_ - pos)`.
Defined behavior requires `pos <= size()`; under that precondition it is the
suffix starting at `pos`. -/
def svSubstrFrom (v : List Nat) (pos : Nat) : List Nat := v.drop pos

/-- `string_view::substr(pos, count)` (lines 854-856):
`string_view(start_ + pos, sz_min_of_two(count, length_ - pos))` — the window
at `pos` of length `min count (size - pos)`; the count is clamped explicitly. -/
def svSubstr (v : List Nat) (pos count : Nat) : List Nat :=
  (v.drop pos).take (min count (v.length - pos))

/-- `string_view::split_` (lines 1181-1186): locate the first match via `find`;
on `npos` return `(whole, empty, empty)`, otherwise the three windows
`substr(0, pos)`, `substr(pos, pattern_length)`, `substr(pos + pattern_length)`. -/
def svSplitUnder (H P : List Nat) (plen : Nat) : List Nat × List Nat × List Nat :=
  match listFind H P with
  | none => (H, [], [])
  | some pos => (svSubstr H 0 pos, svSubstr H pos plen, svSubstrFrom H (pos + plen))

/-- `string_view::rsplit_` (lines 1188-1193): same, around the `rfind` match.
(Defined in the source but never called.) -/
def svRSplitUnder (H P : List Nat) (plen : Nat) : List Nat × List Nat × List Nat :=
  match listRFind H P with
  | none => (H, [], [])
  | some pos => (svSubstr H 0 pos, svSubstr H pos plen, svSubstrFrom H (pos + plen))

/-- `string_view::partition(string_view)` (line 1122): `split_(pattern, pattern.length())`. -/
def svPartition (H P : List Nat) : List Nat × List Nat × List Nat :=
  svSplitUnder H P P.length

/-- `string_view::rpartition(string_view)` as written in the source (line 1128):
it calls `split_(pattern, pattern.length())` — the forward `find`-based split —
not `rsplit_`.  (`basic_string::rpartition`, line 1683, likewise forwards to
`view().partition`.) -/
def svRPartition (H P : List Nat) : List Nat × List Nat × List Nat :=
  svSplitUnder H P P.length

/-! ## `sz_string` state and `basic_string` move (SBO ownership)

The data pointer of a string object is either the address of that object's
own embedded inline buffer or of a separately allocated heap block; object
and block identities stand in for addresses. -/

inductive SzPtr where
  | inlineBuf : Nat → SzPtr
  | heapBlock : Nat → SzPtr
deriving DecidableEq

/-- The `sz_string_t` union: the `is_external` discriminant, the data pointer
(`internal.start` / `external.start`), the held bytes, and the capacity.
A bitwise copy of the union copies all four components (for the inline state
the bytes live inside the object, so they travel with the copy). -/
structure sz_string where
  isExternal : Bool
  start : SzPtr
  bytes : List Nat
  space : Nat
deriving DecidableEq

/-- Modelled from the spec: the inline capacity is a small compile-time
constant (`sz_string_t` reserves 23 bytes next to the pointer). -/
def szStringStackSpace : Nat := 23

/-- Modelled from the spec: `sz_string_init` from stringzilla.h resets the
object with identity `objId` to the empty inline state — length zero, data
pointer aimed at the object's own inline buffer. -/
def szStringInit (objId : Nat) : sz_string :=
  ⟨false, .inlineBuf objId, [], szStringStackSpace⟩

/-- Well-formedness of a string owned by object `objId`: in the inline state
the data pointer is the object's own inline buffer; in the heap state it is
some heap block. -/
def szWf (objId : Nat) (s : sz_string) : Prop :=
  (s.isExternal = false → s.start = .inlineBuf objId) ∧
  (s.isExternal = true → ∃ b, s.start = .heapBlock b)

/-- `basic_string::move` (lines 1255-1269): unpack the source, bitwise-copy the
whole union into the destination, repoint `internal.start` at the destination's
own inline buffer unless the source was external, then `sz_string_init` the
source.  Returns `(dest, src-after-move)`.  The move constructor (line 1307)
is exactly this; move assignment (lines 1308-1317) first frees the
destination's old heap block (a no-op on the resulting states) and then calls
the same `move`. -/
def basicStringMove (destId srcId : Nat) (src : sz_string) : sz_string × sz_string :=
  let dest := src
  let dest := { dest with start := if src.isExternal then dest.start else .inlineBuf destId }
  (dest, szStringInit srcId)

/-! ## `basic_string` append / push_back

The logical contents are modelled as `(buffer, length)`: the raw bytes that
the code wrote, and the length the header records; the observable string value
is the first `length` bytes of the buffer. -/

/-- Modelled from the spec: `sz_string_expand(&string_, sz_size_max, added, alloc)`
from stringzilla.h appends `added` uninitialized bytes at the end of the
string (offset `sz_size_max` means the tail), growing the recorded length by
`added` and reallocating as needed.  Uninitialized bytes are modelled as `0`;
allocation success is assumed (the claims under test concern the successful
path). -/
def szStringExpand (s : List Nat) (added : Nat) : List Nat :=
  s ++ List.replicate added 0

/-- `sz_copy(dst + off, src, src.length)`: overwrite `src.length` bytes of a
buffer starting at offset `off`.  Writing past the end of `dst` models the
out-of-bounds heap write the C code would perform. -/
def listOverwrite (dst : List Nat) (off : Nat) (src : List Nat) : List Nat :=
  dst.take off ++ src ++ dst.drop (off + src.length)

/-- `basic_string::try_push_back` (lines 1955-1963): expand by one byte, then
store `c` at `start[size() - 1]`. -/
def try_push_back (s : List Nat) (c : Nat) : List Nat :=
  let s1 := szStringExpand s 1
  listOverwrite s1 (s1.length - 1) [c]

/-- `basic_string::try_append(str, length)` as written in the source
(lines 1965-1973): it expands by `1` — not by `length` — and then copies
`length` bytes at `start + size() - 1`.  The first component is the buffer the
code wrote (including any out-of-bounds bytes), the second the recorded
length. -/
def try_append (s : List Nat) (b : List Nat) : List Nat × Nat :=
  let s1 := szStringExpand s 1
  (listOverwrite s1 (s1.length - 1) b, s1.length)

/-- The observable value of the string after `try_append`: the first
`length` bytes that `size()` / `data()` expose. -/
def try_append_value (s b : List Nat) : List Nat :=
  (try_append s b).1.take (try_append s b).2

/-! ## Forward match range (`range_matches` with `matcher_find`)

An iterator holds the matcher (needle plus `skip_after_match_`, which the
`matcher_find` constructor sets to `1` when overlaps are allowed and to the
needle's length otherwise) and the `remaining_` slice.  `remaining_` is
modelled as the offset of its first byte within the original haystack
(pointer identity) together with its bytes. -/

structure MatchIt where
  off : Nat
  rem : List Nat
deriving DecidableEq

/-- `range_matches::iterator::iterator` (lines 330-333): locate the first
match and trim the prefix up to it (or to the end when not found). -/
def matchItBegin (hay needle : List Nat) : MatchIt :=
  let adv := (listFind hay needle).getD hay.length
  ⟨adv, hay.drop adv⟩

/-- `range_matches::iterator::operator++` (lines 337-342): drop `skip_length()`
bytes from the front of `remaining_`, relocate, trim again. -/
def matchItNext (needle : List Nat) (skip : Nat) (it : MatchIt) : MatchIt :=
  let rem1 := it.rem.drop skip
  let adv := (listFind rem1 needle).getD rem1.length
  ⟨it.off + skip + adv, rem1.drop adv⟩

/-- `range_matches::iterator::operator==(iterator)` (line 351): compares the
`remaining_.begin()` cursors only — never the slices' bytes. -/
def matchItEq (a b : MatchIt) : Bool := a.off == b.off

/-- Driving the iterator: yield the current match offset while the iterator
differs from the `end_sentinel` (`remaining_.empty()`, line 353), then
advance.  Fuel bounds the traversal; `hay.length + 1` is always enough when
the skip is positive. -/
def matchOffsets (fuel : Nat) (needle : List Nat) (skip : Nat) (it : MatchIt) : List Nat :=
  match fuel with
  | 0 => []
  | fuel + 1 =>
    if it.rem.isEmpty then []
    else it.off :: matchOffsets fuel needle skip (matchItNext needle skip it)

/-- `find_all(needle, overlap)` reduced to the list of reported match offsets:
`matcher_find` uses skip `1` when overlaps are allowed and `needle.length`
otherwise (lines 226-229). -/
def findAllOffsets (hay needle : List Nat) (overlap : Bool) : List Nat :=
  matchOffsets (hay.length + 1) needle (if overlap then 1 else needle.length)
    (matchItBegin hay needle)

/-! ## Reverse match range (`range_rmatches`): iterator equality compares the
`remaining_.end()` cursors (line 432).  `remaining_.begin()` never moves for
the reverse scan, so the end cursor is `off + rem.length`. -/

structure RMatchIt where
  off : Nat
  rem : List Nat
deriving DecidableEq

/-- `range_rmatches::iterator::operator==` (line 432). -/
def rmatchItEq (a b : RMatchIt) : Bool := (a.off + a.rem.length) == (b.off + b.rem.length)

/-! ## Forward split range (`range_splits`) -/

structure SplitIt where
  off : Nat
  rem : List Nat
  gapLen : Nat
  tail : Bool
deriving DecidableEq

/-- The first-gap length: offset of the first match, or the whole slice. -/
def gapOf (rem needle : List Nat) : Nat := (listFind rem needle).getD rem.length

/-- `range_splits::iterator::iterator` (lines 492-496): locate the first
match; the current gap runs up to it (or to the end); `reached_tail_ = false`. -/
def splitItBegin (hay needle : List Nat) : SplitIt :=
  ⟨0, hay, gapOf hay needle, false⟩

/-- `range_splits::end()` (line 529): the slice `{haystack_.end(), 0}` with the
tail flag set (the `length_within_remaining_` field is left uninitialized by
that constructor; `0` stands in for it — `operator==` never reads it). -/
def splitItEnd (hay : List Nat) : SplitIt :=
  ⟨hay.length, [], 0, true⟩

/-- `range_splits::iterator::operator++` (lines 503-510): drop the current gap,
set `reached_tail_` when nothing remains, otherwise skip one needle length,
then relocate to size the next gap. -/
def splitItNext (needle : List Nat) (it : SplitIt) : SplitIt :=
  let rem1 := it.rem.drop it.gapLen
  let tail := rem1.isEmpty
  let d := if tail then 0 else needle.length
  let rem2 := rem1.drop d
  ⟨it.off + it.gapLen + d, rem2, gapOf rem2 needle, tail⟩

/-- `range_splits::iterator::operator==(iterator)` (lines 521-523): the
`remaining_.begin()` cursors must coincide AND the `reached_tail_` flags must
agree.  Byte contents are never inspected. -/
def splitItEq (a b : SplitIt) : Bool := (a.off == b.off) && (a.tail == b.tail)

/-- Driving the split iterator: yield `substr(0, length_within_remaining_)`
while the iterator differs from the `end_sentinel`
(`remaining_.empty() && reached_tail_`, line 525), then advance. -/
def splitGaps (fuel : Nat) (needle : List Nat) (it : SplitIt) : List (List Nat) :=
  match fuel with
  | 0 => []
  | fuel + 1 =>
    if it.rem.isEmpty && it.tail then []
    else (it.rem.take it.gapLen) :: splitGaps fuel needle (splitItNext needle it)

/-- `split(needle)` reduced to the list of gap slices. -/
def splitList (hay needle : List Nat) : List (List Nat) :=
  splitGaps (hay.length + 2) needle (splitItBegin hay needle)

/-- Concatenation of the gaps with one copy of the separator between
consecutive gaps (the spec-side reconstruction of the split complement law). -/
def joinSep (sep : List Nat) : List (List Nat) → List Nat
  | [] => []
  | [x] => x
  | x :: y :: ys => x ++ sep ++ joinSep sep (y :: ys)

/-! ## Reverse split range (`range_rsplits`): equality compares the
`remaining_.end()` cursors and the tail flags (lines 618-620). -/

structure RSplitIt where
  off : Nat
  rem : List Nat
  gapLen : Nat
  tail : Bool
deriving DecidableEq

/-- `range_rsplits::iterator::operator==` (lines 618-620). -/
def rsplitItEq (a b : RSplitIt) : Bool :=
  ((a.off + a.rem.length) == (b.off + b.rem.length)) && (a.tail == b.tail)

/-! ## Unfolding helpers for the fueled iterations -/

theorem matchOffsets_succ (f : Nat) (needle : List Nat) (skip : Nat) (it : MatchIt) :
    matchOffsets (f + 1) needle skip it =
      if it.rem.isEmpty then []
      else it.off :: matchOffsets f needle skip (matchItNext needle skip it) := rfl

theorem splitGaps_succ (f : Nat) (needle : List Nat) (it : SplitIt) :
    splitGaps (f + 1) needle it =
      if it.rem.isEmpty && it.tail then []
      else (it.rem.take it.gapLen) :: splitGaps f needle (splitItNext needle it) := rfl

/-! ## Claim theorems -/

/-- C1: after `dest` is move-constructed or move-assigned from `src` (both go
through `basic_string::move`), `dest` holds exactly the byte sequence `src`
held before the move, `src` is reset to the empty inline state, and in the
inline state `dest`'s data pointer is the address of `dest`'s own inline
buffer — never the address of `src`'s inline buffer. -/
theorem claim1_move_transfers_and_resets (destId srcId : Nat) (src : sz_string)
    (hwf : szWf srcId src) (hne : destId ≠ srcId) :
    (basicStringMove destId srcId src).1.bytes = src.bytes ∧
    (basicStringMove destId srcId src).2 = szStringInit srcId ∧
    szWf destId (basicStringMove destId srcId src).1 ∧
    (basicStringMove destId srcId src).1.start ≠ .inlineBuf srcId := by
  obtain ⟨hint, hext⟩ := hwf
  cases hsrc : src.isExternal with
  | false =>
    refine ⟨rfl, rfl, ⟨?_, ?_⟩, ?_⟩ <;>
      simp_all [basicStringMove, szWf]
  | true =>
    obtain ⟨b, hb⟩ := hext hsrc
    refine ⟨rfl, rfl, ⟨?_, ?_⟩, ?_⟩ <;>
      simp_all [basicStringMove, szWf]

theorem claim1_move_witness :
    (basicStringMove 0 1 ⟨false, .inlineBuf 1, [5, 6], 23⟩).1.bytes = [5, 6] ∧
    (basicStringMove 0 1 ⟨false, .inlineBuf 1, [5, 6], 23⟩).2 = szStringInit 1 ∧
    szWf 0 (basicStringMove 0 1 ⟨false, .inlineBuf 1, [5, 6], 23⟩).1 ∧
    (basicStringMove 0 1 ⟨false, .inlineBuf 1, [5, 6], 23⟩).1.start ≠ .inlineBuf 1 :=
  claim1_move_transfers_and_resets 0 1 ⟨false, .inlineBuf 1, [5, 6], 23⟩
    ⟨fun _ => rfl, fun h => by simp at h⟩ (by decide)

/-- C2: the claim says a successful `append(v)` leaves `s = A ++ B` with
`size() = A.length + B.length`.  The code of `try_append` expands the string
by `1` byte (not by `length`) and then copies `length` bytes at
`start + size() - 1`: appending "bc" to "a" records length 2 and the
observable value "ab" (the byte 'c' is written out of bounds), not "abc".
`try_push_back` (which expands by 1 and writes 1 byte) is correct. -/
theorem claim2_append_expands_by_one_only :
    try_append_value [97] [98, 99] = [97, 98] ∧
    (try_append [97] [98, 99]).2 = 2 ∧
    try_append_value [97] [98, 99] ≠ [97, 98, 99] ∧
    try_push_back [97] 98 = [97] ++ [98] := by decide

/-- C3: the claim says `(A | B).contains c ↔ A.contains c ∨ B.contains c`.
`operator|` computes the word-wise union into `result` but returns `*this`,
so `A | B = A`: with `A = ∅` and `B = {'0'}` the union does not contain '0'.
The discarded `result` value would have satisfied the claim. -/
theorem claim3_union_returns_lhs :
    csContains (csUnion csEmpty (csAdd csEmpty 48)) 48 = false ∧
    csContains (csAdd csEmpty 48) 48 = true ∧
    csUnion csEmpty (csAdd csEmpty 48) = csEmpty ∧
    csContains (csUnionComputed csEmpty (csAdd csEmpty 48)) 48 = true := by decide

/-- C4: the claim says `rpartition(P)` splits around the last occurrence of
`P`.  The code of `string_view::rpartition` (and of
`basic_string::rpartition`) calls the forward `split_` — `rsplit_` is defined
but never called — so on "abab" / "ab" it returns ("", "ab", "ab"), the split
around the FIRST match, instead of ("ab", "ab", ""). -/
theorem claim4_rpartition_uses_first_match :
    svRPartition [97, 98, 97, 98] [97, 98] = ([], [97, 98], [97, 98]) ∧
    svRPartition [97, 98, 97, 98] [97, 98] ≠ ([97, 98], [97, 98], []) ∧
    svRSplitUnder [97, 98, 97, 98] [97, 98] 2 = ([97, 98], [97, 98], []) := by decide

/-- C8: `partition(P)` returns `(before, match, after)` with
`before ++ match ++ after = H` when a match is found, and `(H, empty, empty)`
when not. -/
theorem claim8_partition_law (H P : List Nat) :
    (svPartition H P).1 ++ (svPartition H P).2.1 ++ (svPartition H P).2.2 = H ∧
    (listFind H P = none → svPartition H P = (H, [], [])) := by
  constructor
  · cases hf : listFind H P with
    | none => simp [svPartition, svSplitUnder, hf]
    | some pos =>
      have hb := listFind_bound H P pos hf
      have hpre := listFind_matchAt H P pos hf
      have hd := listFind_decomp H P pos hf
      have hmin1 : min pos (H.length - 0) = pos := by omega
      have hmin2 : min P.length (H.length - pos) = P.length := by omega
      have htake : (H.drop pos).take P.length = P :=
        (List.prefix_iff_eq_take.mp hpre).symm
      simp only [svPartition, svSplitUnder, hf, svSubstr, svSubstrFrom,
        List.drop_zero, hmin1, hmin2, htake]
      exact hd.symm
  · intro h
    simp [svPartition, svSplitUnder, h]

theorem claim8_partition_law_witness :
    (svPartition [1, 2] [5]).1 ++ (svPartition [1, 2] [5]).2.1 ++ (svPartition [1, 2] [5]).2.2 = [1, 2] ∧
    svPartition [1, 2] [5] = ([1, 2], [], []) :=
  ⟨(claim8_partition_law [1, 2] [5]).1,
   (claim8_partition_law [1, 2] [5]).2 (by decide)⟩

/-- C9 counterexample: over the haystack "a," with delimiter ",", the split
iterator obtained by one increment from `begin()` (it denotes the final empty
gap) and the iterator `end()` have coinciding remaining-slice start pointers,
yet `operator==` reports them unequal, because it also compares the
`reached_tail_` flags.  This refutes "equal iff the start pointers coincide". -/
theorem claim9_eq_counterexample :
    (splitItNext [44] (splitItBegin [97, 44] [44])).off = (splitItEnd [97, 44]).off ∧
    splitItEq (splitItNext [44] (splitItBegin [97, 44] [44])) (splitItEnd [97, 44]) = false := by
  decide

/-- C9 (amended): match-range iterator equality is exactly coincidence of the
remaining-slice start cursors (end cursors for the reverse variant); split-range
iterator equality is coincidence of the start (resp. end) cursors AND agreement
of the reached-tail flags; no variant inspects the slices' byte contents. -/
theorem claim9_cursor_equality :
    (∀ a b : MatchIt, matchItEq a b = true ↔ a.off = b.off) ∧
    (∀ a b : RMatchIt, rmatchItEq a b = true ↔ a.off + a.rem.length = b.off + b.rem.length) ∧
    (∀ a b : SplitIt, splitItEq a b = true ↔ (a.off = b.off ∧ a.tail = b.tail)) ∧
    (∀ a b : RSplitIt,
      rsplitItEq a b = true ↔ (a.off + a.rem.length = b.off + b.rem.length ∧ a.tail = b.tail)) ∧
    (∀ (off g1 g2 : Nat) (t : Bool) (r1 r2 : List Nat),
      splitItEq ⟨off, r1, g1, t⟩ ⟨off, r2, g2, t⟩ = true) := by
  refine ⟨?_, ?_, ?_, ?_, ?_⟩ <;> intros <;>
    simp [matchItEq, rmatchItEq, splitItEq, rsplitItEq]

/-- C10: for `pos ≤ size()` and any `count`, `substr(pos, count)` is the window
at `pos` of length `min count (size - pos)`: the over-long count is clamped,
so the result equals the plain (self-truncating) `take count` of the suffix. -/
theorem claim10_substr_clamps (v : List Nat) (pos count : Nat) (h : pos ≤ v.length) :
    (svSubstr v pos count).length = min count (v.length - pos) ∧
    svSubstr v pos count = (v.drop pos).take count := by
  constructor
  · simp only [svSubstr, List.length_take, List.length_drop]
    omega
  · simp only [svSubstr, List.take_eq_take, List.length_drop]
    omega

theorem claim10_substr_clamps_witness :
    (svSubstr [1, 2, 3] 1 100).length = min 100 ([1, 2, 3].length - 1) ∧
    svSubstr [1, 2, 3] 1 100 = ([1, 2, 3].drop 1).take 100 :=
  claim10_substr_clamps [1, 2, 3] 1 100 (by decide)

/-! ## C5: forward `find_all` offsets -/

theorem matchOffsets_head (fuel : Nat) (needle : List Nat) (skip : Nat) (it : MatchIt)
    (x : Nat) (h : (matchOffsets fuel needle skip it).head? = some x) : x = it.off := by
  cases fuel with
  | zero => simp [matchOffsets] at h
  | succ f =>
    rw [matchOffsets_succ] at h
    split at h
    · simp at h
    · simp at h
      exact h.symm

/-- Consecutive reported offsets are at least `skip` apart: the iterator
drops `skip_length()` bytes past each match start before relocating. -/
theorem matchOffsets_chain (fuel : Nat) (needle : List Nat) (skip : Nat) (it : MatchIt) :
    List.Chain' (fun p q => p + skip ≤ q) (matchOffsets fuel needle skip it) := by
  induction fuel generalizing it with
  | zero => simp [matchOffsets]
  | succ f ih =>
    rw [matchOffsets_succ]
    split
    · simp
    · apply List.chain'_cons'.mpr
      refine ⟨?_, ih _⟩
      intro y hy
      have hy2 := matchOffsets_head f needle skip (matchItNext needle skip it) y hy
      subst hy2
      simp only [matchItNext]
      omega

theorem matchOffsets_pairwise (fuel : Nat) (needle : List Nat) (skip : Nat)
    (hskip : 1 ≤ skip) (it : MatchIt) :
    List.Pairwise (· < ·) (matchOffsets fuel needle skip it) := by
  have hc : List.Chain' (· < ·) (matchOffsets fuel needle skip it) :=
    (matchOffsets_chain fuel needle skip it).imp (fun a b h => by omega)
  exact List.chain'_iff_pairwise.mp hc

/-- C5: forward `find_all` reports matches at strictly increasing offsets,
each at least `skip_length()` past the previous match start (`1` when overlaps
are allowed, the needle length when not); on "aaaa" / "aa" it yields exactly
[0, 1, 2] with overlaps and [0, 2] without. -/
theorem claim5_find_all_offsets (hay needle : List Nat) (overlap : Bool) (hne : needle ≠ []) :
    List.Pairwise (· < ·) (findAllOffsets hay needle overlap) ∧
    List.Chain' (fun p q => p + (if overlap then 1 else needle.length) ≤ q)
      (findAllOffsets hay needle overlap) ∧
    findAllOffsets [97, 97, 97, 97] [97, 97] true = [0, 1, 2] ∧
    findAllOffsets [97, 97, 97, 97] [97, 97] false = [0, 2] := by
  refine ⟨?_, matchOffsets_chain _ _ _ _, by decide, by decide⟩
  apply matchOffsets_pairwise
  cases overlap with
  | true => simp
  | false =>
    simp only [if_neg Bool.false_ne_true]
    exact List.length_pos.mpr hne

theorem claim5_find_all_offsets_witness :
    List.Pairwise (· < ·) (findAllOffsets [97, 97, 97, 97] [97, 97] true) ∧
    List.Chain' (fun p q => p + (if true then 1 else ([97, 97] : List Nat).length) ≤ q)
      (findAllOffsets [97, 97, 97, 97] [97, 97] true) ∧
    findAllOffsets [97, 97, 97, 97] [97, 97] true = [0, 1, 2] ∧
    findAllOffsets [97, 97, 97, 97] [97, 97] false = [0, 2] :=
  claim5_find_all_offsets [97, 97, 97, 97] [97, 97] true (by decide)

/-! ## C6 / C7: split range counting and reconstruction -/

theorem gapOf_nil (needle : List Nat) : gapOf [] needle = 0 := by
  unfold gapOf listFind
  split <;> simp

theorem gapOf_some (rem needle : List Nat) (i : Nat) (hf : listFind rem needle = some i) :
    gapOf rem needle = i := by simp [gapOf, hf]

theorem gapOf_none (rem needle : List Nat) (hf : listFind rem needle = none) :
    gapOf rem needle = rem.length := by simp [gapOf, hf]

/-- With no match left, the iteration yields exactly the one remaining gap:
the whole remaining slice. -/
theorem splitGaps_none (needle rem : List Nat) (hf : listFind rem needle = none)
    (f1 off1 : Nat) (hf1 : 2 ≤ f1) :
    splitGaps f1 needle ⟨off1, rem, gapOf rem needle, false⟩ = [rem] := by
  obtain ⟨a, rfl⟩ : ∃ a, f1 = (a + 1) + 1 := ⟨f1 - 2, by omega⟩
  rw [gapOf_none rem needle hf, splitGaps_succ]
  have hnext : splitItNext needle ⟨off1, rem, rem.length, false⟩ =
      ⟨off1 + rem.length, [], 0, true⟩ := by
    simp [splitItNext, gapOf_nil]
  rw [hnext, splitGaps_succ]
  simp

/-- A split iterator that has not reached the tail always denotes an element. -/
theorem splitGaps_ne_nil (needle : List Nat) (f : Nat) (it : SplitIt)
    (hf : 1 ≤ f) (ht : it.tail = false) :
    splitGaps f needle it ≠ [] := by
  obtain ⟨a, rfl⟩ : ∃ a, f = a + 1 := ⟨f - 1, by omega⟩
  rw [splitGaps_succ, ht]
  simp

/-- At a forward match, the slice from the match start onward is nonempty. -/
theorem drop_match_ne_nil (rem needle : List Nat) (i : Nat) (hne : needle ≠ [])
    (hf : listFind rem needle = some i) : rem.drop i ≠ [] := by
  intro h0
  have hpre := listFind_matchAt rem needle i hf
  rw [h0] at hpre
  exact hne (List.prefix_nil.mp hpre)

/-- Advancing a split iterator positioned at a found match: drop the gap and
one needle, land on the next first-match state. -/
theorem splitItNext_some (needle rem : List Nat) (i off1 : Nat) (hne : needle ≠ [])
    (hf : listFind rem needle = some i) :
    splitItNext needle ⟨off1, rem, i, false⟩ =
      ⟨off1 + i + needle.length, rem.drop (i + needle.length),
        gapOf (rem.drop (i + needle.length)) needle, false⟩ := by
  have hrd := drop_match_ne_nil rem needle i hne hf
  have hrdne : (rem.drop i).isEmpty = false := by
    cases hrm : rem.drop i with
    | nil => exact absurd hrm hrd
    | cons x xs => rfl
  simp [splitItNext, hrdne, List.drop_drop]

/-- Advancing a match iterator positioned at a found match with
skip = needle length. -/
theorem matchItNext_skip_needle (needle rem : List Nat) (i off2 : Nat) :
    matchItNext needle needle.length ⟨off2, rem.drop i⟩ =
      ⟨off2 + needle.length + gapOf (rem.drop (i + needle.length)) needle,
        (rem.drop (i + needle.length)).drop (gapOf (rem.drop (i + needle.length)) needle)⟩ := by
  simp [matchItNext, gapOf, List.drop_drop]

/-- The split range yields one more element than the non-overlapping forward
match scan: `gaps = matches + 1`. -/
theorem splitGaps_length_eq (needle : List Nat) (hne : needle ≠ []) (n : Nat) :
    ∀ (rem : List Nat), rem.length ≤ n →
      ∀ (f1 f2 off1 off2 : Nat), rem.length + 2 ≤ f1 → rem.length + 1 ≤ f2 →
      (splitGaps f1 needle ⟨off1, rem, gapOf rem needle, false⟩).length =
        (matchOffsets f2 needle needle.length ⟨off2, rem.drop (gapOf rem needle)⟩).length + 1 := by
  have hnn : 1 ≤ needle.length := List.length_pos.mpr hne
  induction n with
  | zero =>
    intro rem hlen f1 f2 off1 off2 hf1 hf2
    have hrem : rem = [] := List.length_eq_zero.mp (Nat.le_zero.mp hlen)
    subst hrem
    have hf : listFind [] needle = none := listFind_nil needle hne
    rw [splitGaps_none needle [] hf f1 off1 (by omega)]
    obtain ⟨c, rfl⟩ : ∃ c, f2 = c + 1 := ⟨f2 - 1, by omega⟩
    rw [matchOffsets_succ]
    simp
  | succ m ih =>
    intro rem hlen f1 f2 off1 off2 hf1 hf2
    cases hf : listFind rem needle with
    | none =>
      rw [splitGaps_none needle rem hf f1 off1 (by omega)]
      obtain ⟨c, rfl⟩ : ∃ c, f2 = c + 1 := ⟨f2 - 1, by omega⟩
      rw [gapOf_none rem needle hf, matchOffsets_succ]
      simp
    | some i =>
      have hb := listFind_bound rem needle i hf
      have hrd := drop_match_ne_nil rem needle i hne hf
      have hrdne : (rem.drop i).isEmpty = false := by
        cases hrm : rem.drop i with
        | nil => exact absurd hrm hrd
        | cons x xs => rfl
      obtain ⟨a, rfl⟩ : ∃ a, f1 = a + 1 := ⟨f1 - 1, by omega⟩
      obtain ⟨c, rfl⟩ : ∃ c, f2 = c + 1 := ⟨f2 - 1, by omega⟩
      rw [gapOf_some rem needle i hf, splitGaps_succ, matchOffsets_succ]
      simp only [Bool.and_false, Bool.false_eq_true, if_false, hrdne,
        List.length_cons]
      rw [splitItNext_some needle rem i off1 hne hf,
        matchItNext_skip_needle needle rem i off2]
      have hd2 : (rem.drop (i + needle.length)).length ≤ m := by
        simp only [List.length_drop]
        omega
      have := ih (rem.drop (i + needle.length)) hd2 a c
        (off1 + i + needle.length)
        (off2 + needle.length + gapOf (rem.drop (i + needle.length)) needle)
        (by simp only [List.length_drop]; omega)
        (by simp only [List.length_drop]; omega)
      omega

theorem joinSep_cons (sep x : List Nat) (rest : List (List Nat)) (h : rest ≠ []) :
    joinSep sep (x :: rest) = x ++ sep ++ joinSep sep rest := by
  cases rest with
  | nil => exact absurd rfl h
  | cons y ys => rfl

/-- Concatenating the gaps with the delimiter between consecutive gaps
reconstructs the remaining slice. -/
theorem splitGaps_join (needle : List Nat) (hne : needle ≠ []) (n : Nat) :
    ∀ (rem : List Nat), rem.length ≤ n →
      ∀ (f1 off1 : Nat), rem.length + 2 ≤ f1 →
      joinSep needle (splitGaps f1 needle ⟨off1, rem, gapOf rem needle, false⟩) = rem := by
  have hnn : 1 ≤ needle.length := List.length_pos.mpr hne
  induction n with
  | zero =>
    intro rem hlen f1 off1 hf1
    have hrem : rem = [] := List.length_eq_zero.mp (Nat.le_zero.mp hlen)
    subst hrem
    rw [splitGaps_none needle [] (listFind_nil needle hne) f1 off1 (by omega)]
    rfl
  | succ m ih =>
    intro rem hlen f1 off1 hf1
    cases hf : listFind rem needle with
    | none =>
      rw [splitGaps_none needle rem hf f1 off1 (by omega)]
      rfl
    | some i =>
      have hb := listFind_bound rem needle i hf
      obtain ⟨a, rfl⟩ : ∃ a, f1 = a + 1 := ⟨f1 - 1, by omega⟩
      rw [gapOf_some rem needle i hf, splitGaps_succ]
      simp only [Bool.and_false, Bool.false_eq_true, if_false]
      rw [splitItNext_some needle rem i off1 hne hf]
      have hrest : splitGaps a needle
          ⟨off1 + i + needle.length, rem.drop (i + needle.length),
            gapOf (rem.drop (i + needle.length)) needle, false⟩ ≠ [] :=
        splitGaps_ne_nil needle a _ (by omega) rfl
      rw [joinSep_cons needle _ _ hrest]
      rw [ih (rem.drop (i + needle.length)) (by simp only [List.length_drop]; omega)
        a (off1 + i + needle.length) (by simp only [List.length_drop]; omega)]
      exact (listFind_decomp rem needle i hf).symm

/-- C6: for every haystack and nonempty delimiter, the forward split range is
non-empty and yields exactly N + 1 gaps, where N is the number of
non-overlapping scan-order matches (the offsets reported by `find_all` with
overlap disabled); "".split(",") = [""] and "a,".split(",") = ["a", ""].  -/
theorem claim6_split_count (hay needle : List Nat) (hne : needle ≠ []) :
    (splitList hay needle).length = (findAllOffsets hay needle false).length + 1 ∧
    splitList hay needle ≠ [] ∧
    splitList [] [44] = [[]] ∧
    splitList [97, 44] [44] = [[97], []] := by
  refine ⟨?_, ?_, by decide, by decide⟩
  · have hbegin : matchItBegin hay needle =
        ⟨gapOf hay needle, hay.drop (gapOf hay needle)⟩ := rfl
    have h := splitGaps_length_eq needle hne hay.length hay le_rfl
      (hay.length + 2) (hay.length + 1) 0 (gapOf hay needle) (by omega) (by omega)
    simpa [splitList, findAllOffsets, splitItBegin, hbegin] using h
  · exact splitGaps_ne_nil needle (hay.length + 2) (splitItBegin hay needle)
      (by omega) rfl

theorem claim6_split_count_witness :
    (splitList [97, 44] [44]).length = (findAllOffsets [97, 44] [44] false).length + 1 ∧
    splitList [97, 44] [44] ≠ [] ∧
    splitList [] [44] = [[]] ∧
    splitList [97, 44] [44] = [[97], []] :=
  claim6_split_count [97, 44] [44] (by decide)

/-- C7: concatenating the gaps yielded by `split` in order, with one copy of
the delimiter between consecutive gaps, reconstructs the haystack exactly;
with no match the single yielded gap is the haystack itself. -/
theorem claim7_split_reconstruct (hay needle : List Nat) (hne : needle ≠ []) :
    joinSep needle (splitList hay needle) = hay ∧
    (listFind hay needle = none → splitList hay needle = [hay]) := by
  constructor
  · exact splitGaps_join needle hne hay.length hay le_rfl (hay.length + 2) 0 (by omega)
  · intro hf
    exact splitGaps_none needle hay hf (hay.length + 2) 0 (by omega)

theorem claim7_split_reconstruct_witness :
    joinSep [44] (splitList [97, 44, 98] [44]) = [97, 44, 98] ∧
    (listFind [97, 44, 98] [44] = none → splitList [97, 44, 98] [44] = [[97, 44, 98]]) :=
  claim7_split_reconstruct [97, 44, 98] [44] (by decide)
